import Mathlib

set_option maxHeartbeats 1000000

/-!
Verification development for the Doorstop document-hierarchy processor
(`doorstop/core/processor.py`).  The tree assembler (`Node.from_list`,
`Node.place`), the traversal primitives (`__iter__`, `__len__`), the
validator (`Node.check`), the document factory wrapper (`Node.new`) and the
item linker (`Node.link`) are embedded shallowly below; the external
collaborators (document handles, items, ID parsing, storage) are modelled
from the specification where the repository's own code for them is not part
of the processor module.
-/

/-- Item record as the processor sees it, modelled from the spec: items
expose `number: int`, `id: string`, `path: string` and a mutable list of
outgoing links manipulated through `addLink(parentId)`. -/
structure Item where
  number : Nat
  id : String
  path : String := ""
  links : List String := []
deriving DecidableEq

/-- Document handle: a case-preserved identifying string `pfx` (the
document's prefix), an optional parent document reference `parent`
(`none` marks a root document, mirroring Python's `doc.parent is None`),
the directory `path` backing the document on disk, the document's items,
and `checkErr`, modelled from the spec: the external `check()` either
succeeds or raises a document-level error carrying a message. -/
structure Document where
  pfx : String
  parent : Option String
  path : String := ""
  items : List Item := []
  checkErr : Option String := none
deriving DecidableEq

/-- The error conditions raised by the processor (`DoorstopError` in the
source carries only a message string; the distinct messages are embedded
as distinct constructors, keeping the data each message formats). -/
inductive DoorstopError where
  | noRoot
  | unplacedDoc (d : Document)
  | noParent (d : Document)
  | noMatchingPfx (p : String)
  | noMatchingChildId (id : String)
  | noMatchingParentId (id : String)
  | noMatchingId (id : String)
  | invalidIdFormat (s : String)
deriving DecidableEq

/-- A tree node wraps exactly one document and an ordered list of child
nodes (the `parent` back-reference of the source is navigation-only and
carries no information beyond the tree shape, so it is not represented). -/
inductive Node where
  | mk (document : Document) (children : List Node)

/-- Document wrapped by a node. -/
def Node.document : Node → Document
  | .mk d _ => d

/-- Ordered children of a node. -/
def Node.children : Node → List Node
  | .mk _ cs => cs

mutual

/-- Embedding of `Node.place`: if the document's parent reference equals
this node's prefix (exact string comparison, `doc.parent ==
self.document.prefix`), append a new child node; otherwise try each child
in order and raise `no parent for: doc` when every child refuses. -/
def place (t : Node) (d : Document) : Except DoorstopError Node :=
  match t with
  | .mk doc cs =>
    if d.parent = some doc.pfx then
      .ok (.mk doc (cs ++ [.mk d []]))
    else
      match placeChildren cs d with
      | .ok cs2 => .ok (.mk doc cs2)
      | .error e => .error e

/-- The `for child in self.children` loop of `Node.place`: first child that
accepts the document wins; an empty or exhausted list raises. -/
def placeChildren (cs : List Node) (d : Document) : Except DoorstopError (List Node) :=
  match cs with
  | [] => .error (.noParent d)
  | c :: rest =>
    match place c d with
    | .ok c2 => .ok (c2 :: rest)
    | .error _ =>
      match placeChildren rest d with
      | .ok rest2 => .ok (c :: rest2)
      | .error e => .error e

end

mutual

/-- Embedding of `Node.__iter__`: the node's own document followed by the
pre-order traversal of each child subtree, left to right. -/
def preorder (t : Node) : List Document :=
  match t with
  | .mk doc cs => doc :: preorderList cs

/-- Pre-order traversal of a list of sibling subtrees. -/
def preorderList (cs : List Node) : List Document :=
  match cs with
  | [] => []
  | c :: rest => preorder c ++ preorderList rest

end

mutual

/-- Embedding of `Node.__len__`: one plus the sizes of the children. -/
def size (t : Node) : Nat :=
  match t with
  | .mk _ cs => 1 + sizeList cs

/-- Total size of a list of sibling subtrees. -/
def sizeList (cs : List Node) : Nat :=
  match cs with
  | [] => 0
  | c :: rest => size c + sizeList rest

end

/-- Root selection of `Node.from_list` (lines 65–74): scan the list in
order for the first document whose parent reference is `None`; return it
together with the remaining documents in their original order, or `none`
when no such document exists. -/
def extractRoot (docs : List Document) : Option (Document × List Document) :=
  match docs with
  | [] => none
  | d :: ds =>
    if d.parent = none then some (d, ds)
    else
      match extractRoot ds with
      | some (r, rest) => some (r, d :: rest)
      | none => none

/-- One full pass of the fixed-point loop of `Node.from_list`: walk a
snapshot of the unplaced list in order, attempt `place` against the tree
built so far, drop the documents that placed and keep the rest in order. -/
def passOnce (t : Node) (u : List Document) : Node × List Document :=
  match u with
  | [] => (t, [])
  | d :: ds =>
    match place t d with
    | .ok t2 => passOnce t2 ds
    | .error _ =>
      let r := passOnce t ds
      (r.1, d :: r.2)

theorem passOnce_length_le (t : Node) (u : List Document) :
    (passOnce t u).2.length ≤ u.length := by
  induction u generalizing t with
  | nil => simp [passOnce]
  | cons d ds ih =>
    simp only [passOnce]
    cases place t d with
    | ok t2 => exact Nat.le_succ_of_le (ih t2)
    | error e => simpa using ih t

/-- The `while unplaced:` loop of `Node.from_list` (lines 76–90): run full
passes until the unplaced list empties; if a pass removes nothing, raise
`unplaced document: unplaced[0]`. -/
def buildLoop (t : Node) (u : List Document) : Except DoorstopError Node :=
  match u with
  | [] => .ok t
  | d :: ds =>
    if h : (passOnce t (d :: ds)).2.length = (d :: ds).length then
      .error (.unplacedDoc ((passOnce t (d :: ds)).2.headD d))
    else
      buildLoop (passOnce t (d :: ds)).1 (passOnce t (d :: ds)).2
termination_by u.length
decreasing_by
  simp only [List.length_cons]
  have hle := passOnce_length_le t (d :: ds)
  simp only [List.length_cons] at hle h
  omega

/-- Embedding of `Node.from_list`: pick the first root-eligible document,
then run the fixed-point placement loop over the remainder. -/
def fromList (docs : List Document) : Except DoorstopError Node :=
  match extractRoot docs with
  | none => .error .noRoot
  | some (r, rest) => buildLoop (.mk r []) rest

theorem node_rec_aux (P : Node → Prop) (Q : List Node → Prop)
    (h1 : ∀ d cs, Q cs → P (Node.mk d cs)) (h2 : Q [])
    (h3 : ∀ c cs, P c → Q cs → Q (c :: cs)) :
    ∀ n : Nat, (∀ t, sizeOf t ≤ n → P t) ∧ (∀ cs : List Node, sizeOf cs ≤ n → Q cs) := by
  intro n
  induction n with
  | zero =>
    constructor
    · intro t ht
      cases t with
      | mk d cs => simp at ht
    · intro cs hcs
      cases cs with
      | nil => exact h2
      | cons c rest => simp at hcs
  | succ n ih =>
    constructor
    · intro t ht
      cases t with
      | mk d cs =>
        apply h1
        apply ih.2
        simp at ht
        omega
    · intro cs hcs
      cases cs with
      | nil => exact h2
      | cons c rest =>
        simp at hcs
        exact h3 c rest (ih.1 c (by omega)) (ih.2 rest (by omega))

/-- Simultaneous induction over nodes and lists of sibling nodes. -/
theorem node_ind (P : Node → Prop) (Q : List Node → Prop)
    (h1 : ∀ d cs, Q cs → P (Node.mk d cs)) (h2 : Q [])
    (h3 : ∀ c cs, P c → Q cs → Q (c :: cs)) :
    (∀ t, P t) ∧ (∀ cs, Q cs) :=
  ⟨fun t => (node_rec_aux P Q h1 h2 h3 (sizeOf t)).1 t le_rfl,
   fun cs => (node_rec_aux P Q h1 h2 h3 (sizeOf cs)).2 cs le_rfl⟩

theorem place_mk (doc : Document) (cs : List Node) (d : Document) :
    place (Node.mk doc cs) d =
      if d.parent = some doc.pfx then .ok (.mk doc (cs ++ [.mk d []]))
      else
        match placeChildren cs d with
        | .ok cs2 => .ok (.mk doc cs2)
        | .error e => .error e := by
  rw [place]

theorem placeChildren_nil (d : Document) :
    placeChildren [] d = .error (.noParent d) := by
  rw [placeChildren]

theorem placeChildren_cons (c : Node) (cs : List Node) (d : Document) :
    placeChildren (c :: cs) d =
      match place c d with
      | .ok c2 => .ok (c2 :: cs)
      | .error _ =>
        match placeChildren cs d with
        | .ok rest2 => .ok (c :: rest2)
        | .error e => .error e := by
  rw [placeChildren]

theorem preorder_mk (doc : Document) (cs : List Node) :
    preorder (Node.mk doc cs) = doc :: preorderList cs := by
  rw [preorder]

theorem preorderList_nil : preorderList [] = [] := by
  rw [preorderList]

theorem preorderList_cons (c : Node) (cs : List Node) :
    preorderList (c :: cs) = preorder c ++ preorderList cs := by
  rw [preorderList]

theorem preorderList_append (as bs : List Node) :
    preorderList (as ++ bs) = preorderList as ++ preorderList bs := by
  induction as with
  | nil => simp [preorderList_nil]
  | cons c rest ih => simp [preorderList_cons, ih]

theorem placeOk_all (d : Document) :
    (∀ t, (∃ t2, place t d = .ok t2) ↔ ∃ x ∈ preorder t, d.parent = some x.pfx) ∧
    (∀ cs, (∃ cs2, placeChildren cs d = .ok cs2) ↔
      ∃ x ∈ preorderList cs, d.parent = some x.pfx) := by
  apply node_ind
  · intro doc cs hQ
    constructor
    · intro ⟨t2, ht2⟩
      rw [place_mk] at ht2
      by_cases hp : d.parent = some doc.pfx
      · exact ⟨doc, by simp [preorder_mk], hp⟩
      · rw [if_neg hp] at ht2
        cases h : placeChildren cs d with
        | ok cs2 =>
          obtain ⟨x, hx, hxp⟩ := hQ.mp ⟨cs2, h⟩
          exact ⟨x, by simp [preorder_mk]; exact Or.inr hx, hxp⟩
        | error e => rw [h] at ht2; cases ht2
    · intro ⟨x, hx, hxp⟩
      rw [preorder_mk] at hx
      by_cases hp : d.parent = some doc.pfx
      · exact ⟨_, by rw [place_mk, if_pos hp]⟩
      · rcases List.mem_cons.mp hx with rfl | hx2
        · exact absurd hxp hp
        · obtain ⟨cs2, h⟩ := hQ.mpr ⟨x, hx2, hxp⟩
          refine ⟨Node.mk doc cs2, ?_⟩
          rw [place_mk, if_neg hp, h]
  · constructor
    · intro ⟨cs2, h⟩
      rw [placeChildren_nil] at h
      cases h
    · intro ⟨x, hx, _⟩
      rw [preorderList_nil] at hx
      cases hx
  · intro c cs hP hQ
    constructor
    · intro ⟨cs2, hcs2⟩
      rw [placeChildren_cons] at hcs2
      cases h : place c d with
      | ok c2 =>
        obtain ⟨x, hx, hxp⟩ := hP.mp ⟨c2, h⟩
        exact ⟨x, by rw [preorderList_cons]; exact List.mem_append_left _ hx, hxp⟩
      | error e =>
        rw [h] at hcs2
        cases h2 : placeChildren cs d with
        | ok rest2 =>
          obtain ⟨x, hx, hxp⟩ := hQ.mp ⟨rest2, h2⟩
          exact ⟨x, by rw [preorderList_cons]; exact List.mem_append_right _ hx, hxp⟩
        | error e2 => rw [h2] at hcs2; cases hcs2
    · intro ⟨x, hx, hxp⟩
      rw [preorderList_cons] at hx
      rcases List.mem_append.mp hx with hx2 | hx2
      · obtain ⟨c2, h⟩ := hP.mpr ⟨x, hx2, hxp⟩
        refine ⟨c2 :: cs, ?_⟩
        rw [placeChildren_cons, h]
      · obtain ⟨rest2, h2⟩ := hQ.mpr ⟨x, hx2, hxp⟩
        cases h : place c d with
        | ok c2 =>
          refine ⟨c2 :: cs, ?_⟩
          rw [placeChildren_cons, h]
        | error e =>
          refine ⟨c :: rest2, ?_⟩
          rw [placeChildren_cons, h, h2]

theorem place_ok_iff (t : Node) (d : Document) :
    (∃ t2, place t d = .ok t2) ↔ ∃ x ∈ preorder t, d.parent = some x.pfx :=
  (placeOk_all d).1 t

theorem placePerm_all (d : Document) :
    (∀ t, ∀ t2, place t d = .ok t2 → (preorder t2).Perm (d :: preorder t)) ∧
    (∀ cs, ∀ cs2, placeChildren cs d = .ok cs2 →
      (preorderList cs2).Perm (d :: preorderList cs)) := by
  apply node_ind
  · intro doc cs hQ t2 ht2
    rw [place_mk] at ht2
    by_cases hp : d.parent = some doc.pfx
    · rw [if_pos hp] at ht2
      cases ht2
      rw [preorder_mk, preorderList_append, preorderList_cons, preorderList_nil,
        preorder_mk, preorderList_nil]
      refine ((List.Perm.cons doc ?_).trans (List.Perm.swap _ _ _))
      simpa using List.perm_append_singleton d (preorderList cs)
    · rw [if_neg hp] at ht2
      cases h : placeChildren cs d with
      | ok cs2 =>
        rw [h] at ht2
        cases ht2
        rw [preorder_mk, preorder_mk]
        exact (List.Perm.cons doc (hQ cs2 h)).trans (List.Perm.swap _ _ _)
      | error e => rw [h] at ht2; cases ht2
  · intro cs2 h
    rw [placeChildren_nil] at h
    cases h
  · intro c cs hP hQ cs2 hcs2
    rw [placeChildren_cons] at hcs2
    cases h : place c d with
    | ok c2 =>
      rw [h] at hcs2
      cases hcs2
      rw [preorderList_cons, preorderList_cons]
      exact List.Perm.append_right _ (hP c2 h)
    | error e =>
      rw [h] at hcs2
      cases h2 : placeChildren cs d with
      | ok rest2 =>
        rw [h2] at hcs2
        cases hcs2
        rw [preorderList_cons, preorderList_cons]
        exact (List.Perm.append_left _ (hQ rest2 h2)).trans List.perm_middle
      | error e2 => rw [h2] at hcs2; cases hcs2

theorem place_perm (t : Node) (d : Document) (t2 : Node) (h : place t d = .ok t2) :
    (preorder t2).Perm (d :: preorder t) :=
  (placePerm_all d).1 t t2 h

theorem place_document (t : Node) (d : Document) (t2 : Node) (h : place t d = .ok t2) :
    t2.document = t.document := by
  cases t with
  | mk doc cs =>
    rw [place_mk] at h
    by_cases hp : d.parent = some doc.pfx
    · rw [if_pos hp] at h; cases h; rfl
    · rw [if_neg hp] at h
      cases h2 : placeChildren cs d with
      | ok cs2 => rw [h2] at h; cases h; rfl
      | error e => rw [h2] at h; cases h

mutual

/-- Parent/child document pairs of every edge of the tree, in pre-order. -/
def docEdges (t : Node) : List (Document × Document) :=
  match t with
  | .mk doc cs => docEdgesList doc cs

/-- Edges from a node's document to a list of sibling subtrees. -/
def docEdgesList (doc : Document) (cs : List Node) : List (Document × Document) :=
  match cs with
  | [] => []
  | c :: rest => (doc, c.document) :: docEdges c ++ docEdgesList doc rest

end

/-- Parent-prefix/child-prefix pair of every edge of the tree. -/
def prefixEdges (t : Node) : List (String × String) :=
  (docEdges t).map fun pc => (pc.1.pfx, pc.2.pfx)

theorem docEdges_mk (doc : Document) (cs : List Node) :
    docEdges (Node.mk doc cs) = docEdgesList doc cs := by
  rw [docEdges]

theorem docEdgesList_nil (doc : Document) : docEdgesList doc [] = [] := by
  rw [docEdgesList]

theorem docEdgesList_cons (doc : Document) (c : Node) (cs : List Node) :
    docEdgesList doc (c :: cs) =
      (doc, c.document) :: docEdges c ++ docEdgesList doc cs := by
  rw [docEdgesList]

theorem docEdgesList_append (doc : Document) (as bs : List Node) :
    docEdgesList doc (as ++ bs) = docEdgesList doc as ++ docEdgesList doc bs := by
  induction as with
  | nil => simp [docEdgesList_nil]
  | cons c rest ih => simp [docEdgesList_cons, ih]

theorem placeEdges_all (d : Document) :
    (∀ t, ∀ t2, place t d = .ok t2 →
      ∃ x, d.parent = some x.pfx ∧ (docEdges t2).Perm ((x, d) :: docEdges t)) ∧
    (∀ cs, ∀ doc cs2, placeChildren cs d = .ok cs2 →
      ∃ x, d.parent = some x.pfx ∧
        (docEdgesList doc cs2).Perm ((x, d) :: docEdgesList doc cs)) := by
  apply node_ind
  · intro doc cs hQ t2 ht2
    rw [place_mk] at ht2
    by_cases hp : d.parent = some doc.pfx
    · rw [if_pos hp] at ht2
      cases ht2
      refine ⟨doc, hp, ?_⟩
      rw [docEdges_mk, docEdges_mk, docEdgesList_append, docEdgesList_cons,
        docEdgesList_nil, docEdges_mk, docEdgesList_nil]
      simp only [Node.document]
      simpa using List.perm_append_singleton (doc, d) (docEdgesList doc cs)
    · rw [if_neg hp] at ht2
      cases h : placeChildren cs d with
      | ok cs2 =>
        rw [h] at ht2
        cases ht2
        obtain ⟨x, hx, hperm⟩ := hQ doc cs2 h
        exact ⟨x, hx, by rw [docEdges_mk, docEdges_mk]; exact hperm⟩
      | error e => rw [h] at ht2; cases ht2
  · intro doc cs2 h
    rw [placeChildren_nil] at h
    cases h
  · intro c cs hP hQ doc cs2 hcs2
    rw [placeChildren_cons] at hcs2
    cases h : place c d with
    | ok c2 =>
      rw [h] at hcs2
      cases hcs2
      obtain ⟨x, hx, hperm⟩ := hP c2 h
      refine ⟨x, hx, ?_⟩
      rw [docEdgesList_cons, docEdgesList_cons, place_document c d c2 h]
      refine List.Perm.trans (List.Perm.cons _ (List.Perm.append_right _ hperm)) ?_
      exact List.Perm.swap _ _ _
    | error e =>
      rw [h] at hcs2
      cases h2 : placeChildren cs d with
      | ok rest2 =>
        rw [h2] at hcs2
        cases hcs2
        obtain ⟨x, hx, hperm⟩ := hQ doc rest2 h2
        refine ⟨x, hx, ?_⟩
        rw [docEdgesList_cons, docEdgesList_cons]
        refine List.Perm.trans
          (List.Perm.cons _ (List.Perm.append_left _ hperm)) ?_
        exact (List.Perm.cons _ List.perm_middle).trans (List.Perm.swap _ _ _)
      | error e2 => rw [h2] at hcs2; cases hcs2

theorem place_docEdges (t : Node) (d : Document) (t2 : Node) (h : place t d = .ok t2) :
    ∃ x, d.parent = some x.pfx ∧ (docEdges t2).Perm ((x, d) :: docEdges t) :=
  (placeEdges_all d).1 t t2 h

theorem passOnce_perm (u : List Document) : ∀ t : Node,
    ((preorder (passOnce t u).1) ++ (passOnce t u).2).Perm (preorder t ++ u) := by
  induction u with
  | nil => intro t; simp [passOnce]
  | cons d ds ih =>
    intro t
    simp only [passOnce]
    cases h : place t d with
    | ok t2 =>
      refine (ih t2).trans ?_
      refine (List.Perm.append_right ds (place_perm t d t2 h)).trans ?_
      exact List.perm_middle.symm
    | error e =>
      refine List.Perm.trans List.perm_middle ?_
      refine (List.Perm.cons d (ih t)).trans ?_
      exact List.perm_middle.symm

theorem passOnce_document (u : List Document) : ∀ t : Node,
    (passOnce t u).1.document = t.document := by
  induction u with
  | nil => intro t; simp [passOnce]
  | cons d ds ih =>
    intro t
    simp only [passOnce]
    cases h : place t d with
    | ok t2 => rw [ih t2, place_document t d t2 h]
    | error e => exact ih t

/-- The parent-prefix/child-prefix pair a document will contribute as an
edge once placed (`none` for a root-eligible document). -/
def edgeOf (d : Document) : Option (String × String) :=
  d.parent.map fun p => (p, d.pfx)

theorem passOnce_edges (u : List Document) : ∀ t : Node,
    ((prefixEdges (passOnce t u).1) ++ (passOnce t u).2.filterMap edgeOf).Perm
      (prefixEdges t ++ u.filterMap edgeOf) := by
  induction u with
  | nil => intro t; simp [passOnce]
  | cons d ds ih =>
    intro t
    simp only [passOnce]
    cases h : place t d with
    | ok t2 =>
      obtain ⟨x, hx, hperm⟩ := place_docEdges t d t2 h
      have hedge : edgeOf d = some (x.pfx, d.pfx) := by
        simp [edgeOf, hx]
      have hpe : (prefixEdges t2).Perm ((x.pfx, d.pfx) :: prefixEdges t) := by
        simpa [prefixEdges] using hperm.map fun pc => (pc.1.pfx, pc.2.pfx)
      refine (ih t2).trans ?_
      simp only [List.filterMap_cons, hedge]
      refine (List.Perm.append_right _ hpe).trans ?_
      exact List.perm_middle.symm
    | error e =>
      simp only [List.filterMap_cons]
      cases he : edgeOf d with
      | none => exact ih t
      | some pr =>
        refine List.Perm.trans List.perm_middle ?_
        refine (List.Perm.cons pr (ih t)).trans ?_
        exact List.perm_middle.symm

theorem passOnce_no_progress (u : List Document) : ∀ t : Node,
    (passOnce t u).2.length = u.length → passOnce t u = (t, u) := by
  induction u with
  | nil => intro t _; simp [passOnce]
  | cons d ds ih =>
    intro t hlen
    simp only [passOnce] at hlen ⊢
    cases h : place t d with
    | ok t2 =>
      rw [h] at hlen
      have := passOnce_length_le t2 ds
      simp only [List.length_cons] at hlen
      omega
    | error e =>
      rw [h] at hlen
      simp only [List.length_cons] at hlen
      have := ih t (by omega)
      rw [this]

theorem passOnce_progress (u : List Document) : ∀ t : Node,
    (∃ d ∈ u, ∃ x ∈ preorder t, d.parent = some x.pfx) →
    (passOnce t u).2.length < u.length := by
  induction u with
  | nil => intro t ⟨d, hd, _⟩; cases hd
  | cons d0 ds ih =>
    intro t ⟨d, hd, hx⟩
    simp only [passOnce]
    cases h : place t d0 with
    | ok t2 =>
      have := passOnce_length_le t2 ds
      simp only [List.length_cons]
      omega
    | error e =>
      rcases List.mem_cons.mp hd with rfl | hd2
      · exfalso
        obtain ⟨t2, ht2⟩ := (place_ok_iff t d).mpr hx
        rw [ht2] at h
        cases h
      · have := ih t ⟨d, hd2, hx⟩
        simp only [List.length_cons]
        omega

theorem passOnce_keeps (u : List Document) : ∀ (t : Node) (d : Document) (p : String),
    d ∈ u → d.parent = some p → (∀ x ∈ preorder t ++ u, x.pfx ≠ p) →
    d ∈ (passOnce t u).2 := by
  induction u with
  | nil => intro t d p hd _ _; cases hd
  | cons d0 ds ih =>
    intro t d p hd hp hall
    simp only [passOnce]
    cases h : place t d0 with
    | ok t2 =>
      rcases List.mem_cons.mp hd with rfl | hd2
      · exfalso
        obtain ⟨x, hx, hxp⟩ := (place_ok_iff t d).mp ⟨t2, h⟩
        rw [hp] at hxp
        exact hall x (List.mem_append_left _ hx) (Option.some.inj hxp).symm
      · refine ih t2 d p hd2 hp ?_
        intro x hx
        rcases List.mem_append.mp hx with hx2 | hx2
        · rcases List.mem_cons.mp ((place_perm t d0 t2 h).mem_iff.mp hx2) with rfl | hx3
          · exact hall x (List.mem_append_right _ (List.mem_cons_self _ _))
          · exact hall x (List.mem_append_left _ hx3)
        · exact hall x (List.mem_append_right _ (List.mem_cons_of_mem _ hx2))
    | error e =>
      rcases List.mem_cons.mp hd with rfl | hd2
      · exact List.mem_cons_self _ _
      · refine List.mem_cons_of_mem _ (ih t d p hd2 hp ?_)
        intro x hx
        rcases List.mem_append.mp hx with hx2 | hx2
        · exact hall x (List.mem_append_left _ hx2)
        · exact hall x (List.mem_append_right _ (List.mem_cons_of_mem _ hx2))

theorem buildLoop_nil (t : Node) : buildLoop t [] = .ok t := by
  rw [buildLoop]

theorem buildLoop_cons (t : Node) (d : Document) (ds : List Document) :
    buildLoop t (d :: ds) =
      if (passOnce t (d :: ds)).2.length = (d :: ds).length then
        .error (.unplacedDoc ((passOnce t (d :: ds)).2.headD d))
      else
        buildLoop (passOnce t (d :: ds)).1 (passOnce t (d :: ds)).2 := by
  rw [buildLoop]
  split
  · rfl
  · rfl

theorem buildLoop_ok_perm_aux : ∀ (n : Nat) (t : Node) (u : List Document),
    u.length ≤ n → ∀ t2, buildLoop t u = .ok t2 →
    (preorder t2).Perm (preorder t ++ u) := by
  intro n
  induction n with
  | zero =>
    intro t u hu t2 h
    have : u = [] := List.length_eq_zero.mp (Nat.le_zero.mp hu)
    subst this
    rw [buildLoop_nil] at h
    cases h
    simp
  | succ n ih =>
    intro t u hu t2 h
    cases u with
    | nil =>
      rw [buildLoop_nil] at h
      cases h
      simp
    | cons d ds =>
      rw [buildLoop_cons] at h
      split at h
      · cases h
      · rename_i hne
        have hle := passOnce_length_le t (d :: ds)
        have hlt : (passOnce t (d :: ds)).2.length < (d :: ds).length :=
          Nat.lt_of_le_of_ne hle hne
        have hrec := ih (passOnce t (d :: ds)).1 (passOnce t (d :: ds)).2
          (by simp only [List.length_cons] at hu hlt ⊢; omega) t2 h
        exact hrec.trans (passOnce_perm (d :: ds) t)

theorem buildLoop_ok_perm (t : Node) (u : List Document) (t2 : Node)
    (h : buildLoop t u = .ok t2) : (preorder t2).Perm (preorder t ++ u) :=
  buildLoop_ok_perm_aux u.length t u le_rfl t2 h

theorem buildLoop_ok_document_aux : ∀ (n : Nat) (t : Node) (u : List Document),
    u.length ≤ n → ∀ t2, buildLoop t u = .ok t2 → t2.document = t.document := by
  intro n
  induction n with
  | zero =>
    intro t u hu t2 h
    have : u = [] := List.length_eq_zero.mp (Nat.le_zero.mp hu)
    subst this
    rw [buildLoop_nil] at h
    cases h
    rfl
  | succ n ih =>
    intro t u hu t2 h
    cases u with
    | nil => rw [buildLoop_nil] at h; cases h; rfl
    | cons d ds =>
      rw [buildLoop_cons] at h
      split at h
      · cases h
      · rename_i hne
        have hle := passOnce_length_le t (d :: ds)
        have hlt : (passOnce t (d :: ds)).2.length < (d :: ds).length :=
          Nat.lt_of_le_of_ne hle hne
        have hrec := ih (passOnce t (d :: ds)).1 (passOnce t (d :: ds)).2
          (by simp only [List.length_cons] at hu hlt ⊢; omega) t2 h
        rw [hrec, passOnce_document]

theorem buildLoop_ok_document (t : Node) (u : List Document) (t2 : Node)
    (h : buildLoop t u = .ok t2) : t2.document = t.document :=
  buildLoop_ok_document_aux u.length t u le_rfl t2 h

theorem buildLoop_ok_edges_aux : ∀ (n : Nat) (t : Node) (u : List Document),
    u.length ≤ n → ∀ t2, buildLoop t u = .ok t2 →
    (prefixEdges t2).Perm (prefixEdges t ++ u.filterMap edgeOf) := by
  intro n
  induction n with
  | zero =>
    intro t u hu t2 h
    have : u = [] := List.length_eq_zero.mp (Nat.le_zero.mp hu)
    subst this
    rw [buildLoop_nil] at h
    cases h
    simp
  | succ n ih =>
    intro t u hu t2 h
    cases u with
    | nil =>
      rw [buildLoop_nil] at h
      cases h
      simp
    | cons d ds =>
      rw [buildLoop_cons] at h
      split at h
      · cases h
      · rename_i hne
        have hle := passOnce_length_le t (d :: ds)
        have hlt : (passOnce t (d :: ds)).2.length < (d :: ds).length :=
          Nat.lt_of_le_of_ne hle hne
        have hrec := ih (passOnce t (d :: ds)).1 (passOnce t (d :: ds)).2
          (by simp only [List.length_cons] at hu hlt ⊢; omega) t2 h
        exact hrec.trans (passOnce_edges (d :: ds) t)

theorem buildLoop_ok_edges (t : Node) (u : List Document) (t2 : Node)
    (h : buildLoop t u = .ok t2) :
    (prefixEdges t2).Perm (prefixEdges t ++ u.filterMap edgeOf) :=
  buildLoop_ok_edges_aux u.length t u le_rfl t2 h

/-- A set of already-placed documents `S` can absorb all documents of `u`,
in some order, each one at a moment when a document carrying its parent
prefix is already present.  This is the order-free description of what the
fixed-point placement loop can achieve. -/
inductive CanAbsorb : Multiset Document → Multiset Document → Prop where
  | nil (S : Multiset Document) : CanAbsorb S 0
  | step {S u : Multiset Document} {d : Document} (hd : d ∈ u)
      (hp : ∃ x ∈ S, d.parent = some x.pfx)
      (h : CanAbsorb (d ::ₘ S) (u.erase d)) : CanAbsorb S u

theorem canAbsorb_exchange {S u : Multiset Document} (h : CanAbsorb S u) :
    ∀ d ∈ u, (∃ x ∈ S, d.parent = some x.pfx) → CanAbsorb (d ::ₘ S) (u.erase d) := by
  induction h with
  | nil S =>
    intro d hd _
    simp at hd
  | step hd0 hp0 hsub ih =>
    rename_i S u d0
    intro d hd hp
    by_cases hdd : d = d0
    · subst hdd
      exact hsub
    · have hd2 : d ∈ u.erase d0 := (Multiset.mem_erase_of_ne hdd).mpr hd
      have hp2 : ∃ x ∈ d0 ::ₘ S, d.parent = some x.pfx := by
        obtain ⟨x, hx, hxp⟩ := hp
        exact ⟨x, Multiset.mem_cons_of_mem hx, hxp⟩
      have hrec := ih d hd2 hp2
      refine CanAbsorb.step (d := d0) ?_ ?_ ?_
      · exact (Multiset.mem_erase_of_ne (Ne.symm hdd)).mpr hd0
      · obtain ⟨x, hx, hxp⟩ := hp0
        exact ⟨x, Multiset.mem_cons_of_mem hx, hxp⟩
      · rw [Multiset.cons_swap, Multiset.erase_comm] at hrec
        exact hrec

theorem canAbsorb_parent_ne_none {S u : Multiset Document} (h : CanAbsorb S u) :
    ∀ d ∈ u, d.parent ≠ none := by
  induction h with
  | nil S =>
    intro d hd
    simp at hd
  | step hd0 hp0 hsub ih =>
    rename_i S u d0
    intro d hd
    by_cases hdd : d = d0
    · subst hdd
      obtain ⟨x, _, hxp⟩ := hp0
      rw [hxp]
      simp
    · exact ih d ((Multiset.mem_erase_of_ne hdd).mpr hd)

theorem canAbsorb_exists_placeable {S u : Multiset Document} (h : CanAbsorb S u)
    (hu : u ≠ 0) : ∃ d ∈ u, ∃ x ∈ S, d.parent = some x.pfx := by
  cases h with
  | nil => exact absurd rfl hu
  | step hd hp _ => exact ⟨_, hd, hp⟩

theorem passOnce_canAbsorb_fwd (u : List Document) :
    ∀ (keep : Multiset Document) (t : Node),
    CanAbsorb (↑(preorder t)) (keep + ↑u) →
    CanAbsorb (↑(preorder (passOnce t u).1)) (keep + ↑(passOnce t u).2) := by
  induction u with
  | nil =>
    intro keep t h
    simpa [passOnce] using h
  | cons d ds ih =>
    intro keep t h
    simp only [passOnce]
    cases hp : place t d with
    | ok t2 =>
      have hmem : d ∈ keep + ↑(d :: ds) := by
        simp [← Multiset.cons_coe]
      have hpl : ∃ x ∈ (↑(preorder t) : Multiset Document), d.parent = some x.pfx := by
        obtain ⟨x, hx, hxp⟩ := (place_ok_iff t d).mp ⟨t2, hp⟩
        exact ⟨x, by simpa using hx, hxp⟩
      have h2 := canAbsorb_exchange h d hmem hpl
      have he : (keep + ↑(d :: ds)).erase d = keep + ↑ds := by
        rw [← Multiset.cons_coe, Multiset.add_cons, Multiset.erase_cons_head]
      have hpe : (↑(preorder t2) : Multiset Document) = d ::ₘ ↑(preorder t) := by
        rw [show (d ::ₘ (↑(preorder t) : Multiset Document)) = ↑(d :: preorder t) from
          Multiset.cons_coe d (preorder t)]
        exact Multiset.coe_eq_coe.mpr (place_perm t d t2 hp)
      rw [he, ← hpe] at h2
      exact ih keep t2 h2
    | error e =>
      have h2 : CanAbsorb (↑(preorder t)) ((d ::ₘ keep) + ↑ds) := by
        rw [Multiset.cons_add, ← Multiset.add_cons, Multiset.cons_coe]
        exact h
      have h3 := ih (d ::ₘ keep) t h2
      rw [Multiset.cons_add, ← Multiset.add_cons, Multiset.cons_coe] at h3
      exact h3

theorem passOnce_canAbsorb_back (u : List Document) :
    ∀ (keep : Multiset Document) (t : Node),
    CanAbsorb (↑(preorder (passOnce t u).1)) (keep + ↑(passOnce t u).2) →
    CanAbsorb (↑(preorder t)) (keep + ↑u) := by
  induction u with
  | nil =>
    intro keep t h
    simpa [passOnce] using h
  | cons d ds ih =>
    intro keep t h
    simp only [passOnce] at h
    cases hp : place t d with
    | ok t2 =>
      rw [hp] at h
      have hrec := ih keep t2 h
      refine CanAbsorb.step (d := d) ?_ ?_ ?_
      · simp [← Multiset.cons_coe]
      · obtain ⟨x, hx, hxp⟩ := (place_ok_iff t d).mp ⟨t2, hp⟩
        exact ⟨x, by simpa using hx, hxp⟩
      · have he : (keep + ↑(d :: ds)).erase d = keep + ↑ds := by
          rw [← Multiset.cons_coe, Multiset.add_cons, Multiset.erase_cons_head]
        have hpe : (↑(preorder t2) : Multiset Document) = d ::ₘ ↑(preorder t) := by
          rw [show (d ::ₘ (↑(preorder t) : Multiset Document)) = ↑(d :: preorder t) from
            Multiset.cons_coe d (preorder t)]
          exact Multiset.coe_eq_coe.mpr (place_perm t d t2 hp)
        rw [he, ← hpe]
        exact hrec
    | error e =>
      rw [hp] at h
      have h2 : CanAbsorb (↑(preorder (passOnce t ds).1))
          ((d ::ₘ keep) + ↑(passOnce t ds).2) := by
        rw [Multiset.cons_add, ← Multiset.add_cons, Multiset.cons_coe]
        exact h
      have h3 := ih (d ::ₘ keep) t h2
      rw [Multiset.cons_add, ← Multiset.add_cons, Multiset.cons_coe] at h3
      exact h3

theorem buildLoop_ok_of_canAbsorb_aux : ∀ (n : Nat) (t : Node) (u : List Document),
    u.length ≤ n → CanAbsorb (↑(preorder t)) (↑u) →
    ∃ t2, buildLoop t u = .ok t2 := by
  intro n
  induction n with
  | zero =>
    intro t u hu _
    have : u = [] := List.length_eq_zero.mp (Nat.le_zero.mp hu)
    subst this
    exact ⟨t, buildLoop_nil t⟩
  | succ n ih =>
    intro t u hu h
    cases u with
    | nil => exact ⟨t, buildLoop_nil t⟩
    | cons d ds =>
      have hne : (↑(d :: ds) : Multiset Document) ≠ 0 := by
        simp [← Multiset.cons_coe]
      obtain ⟨d0, hd0, x, hx, hxp⟩ := canAbsorb_exists_placeable h hne
      have hprog : (passOnce t (d :: ds)).2.length < (d :: ds).length := by
        refine passOnce_progress (d :: ds) t ⟨d0, ?_, x, ?_, hxp⟩
        · simpa using hd0
        · simpa using hx
      rw [buildLoop_cons]
      rw [if_neg (by omega)]
      have habs : CanAbsorb (↑(preorder (passOnce t (d :: ds)).1))
          (↑(passOnce t (d :: ds)).2) := by
        have := passOnce_canAbsorb_fwd (d :: ds) 0 t (by simpa using h)
        simpa using this
      refine ih (passOnce t (d :: ds)).1 (passOnce t (d :: ds)).2 ?_ habs
      simp only [List.length_cons] at hu hprog
      omega

theorem canAbsorb_of_buildLoop_ok_aux : ∀ (n : Nat) (t : Node) (u : List Document),
    u.length ≤ n → (∃ t2, buildLoop t u = .ok t2) →
    CanAbsorb (↑(preorder t)) (↑u) := by
  intro n
  induction n with
  | zero =>
    intro t u hu _
    have : u = [] := List.length_eq_zero.mp (Nat.le_zero.mp hu)
    subst this
    exact CanAbsorb.nil _
  | succ n ih =>
    intro t u hu h
    cases u with
    | nil => exact CanAbsorb.nil _
    | cons d ds =>
      obtain ⟨t2, ht2⟩ := h
      rw [buildLoop_cons] at ht2
      split at ht2
      · cases ht2
      · rename_i hne
        have hle := passOnce_length_le t (d :: ds)
        have hlt : (passOnce t (d :: ds)).2.length < (d :: ds).length :=
          Nat.lt_of_le_of_ne hle hne
        have hrec := ih (passOnce t (d :: ds)).1 (passOnce t (d :: ds)).2
          (by simp only [List.length_cons] at hu hlt ⊢; omega) ⟨t2, ht2⟩
        have := passOnce_canAbsorb_back (d :: ds) 0 t (by simpa using hrec)
        simpa using this

/-- The fixed-point loop succeeds exactly when the unplaced documents can
be absorbed into the current tree in some order. -/
theorem buildLoop_ok_iff_canAbsorb (t : Node) (u : List Document) :
    (∃ t2, buildLoop t u = .ok t2) ↔ CanAbsorb (↑(preorder t)) (↑u) :=
  ⟨canAbsorb_of_buildLoop_ok_aux u.length t u le_rfl,
   buildLoop_ok_of_canAbsorb_aux u.length t u le_rfl⟩

theorem canAbsorb_of_rank (rank : String → Nat) (u : Multiset Document) :
    ∀ (S : Multiset Document),
    (∀ d ∈ u, ∃ p, d.parent = some p ∧ rank p < rank d.pfx ∧
      ∃ x ∈ S + u, x.pfx = p) →
    CanAbsorb S u := by
  induction u using Multiset.strongInductionOn with
  | ih u ih =>
    intro S hcond
    by_cases hu : u = 0
    · subst hu
      exact CanAbsorb.nil _
    · have hne : u.toFinset.Nonempty := by
        rw [Multiset.toFinset_nonempty]
        exact hu
      obtain ⟨d, hd, hmin⟩ := u.toFinset.exists_min_image (fun e => rank e.pfx) hne
      rw [Multiset.mem_toFinset] at hd
      obtain ⟨p, hp, hrank, x, hxmem, hxp⟩ := hcond d hd
      have hxS : x ∈ S := by
        rcases Multiset.mem_add.mp hxmem with hxS | hxu
        · exact hxS
        · exfalso
          have := hmin x (Multiset.mem_toFinset.mpr hxu)
          rw [hxp] at this
          omega
      refine CanAbsorb.step hd ⟨x, hxS, by rw [hp, hxp]⟩ ?_
      refine ih (u.erase d) (Multiset.erase_lt.mpr hd) (d ::ₘ S) ?_
      intro e he
      obtain ⟨pe, hpe, hranke, y, hymem, hyp⟩ :=
        hcond e (Multiset.mem_of_mem_erase he)
      refine ⟨pe, hpe, hranke, y, ?_, hyp⟩
      have : (d ::ₘ S) + u.erase d = S + u := by
        rw [Multiset.cons_add, ← Multiset.add_cons, Multiset.cons_erase hd]
      rw [this]
      exact hymem

theorem extractRoot_none_iff (docs : List Document) :
    extractRoot docs = none ↔ ∀ d ∈ docs, d.parent ≠ none := by
  induction docs with
  | nil => simp [extractRoot]
  | cons d ds ih =>
    simp only [extractRoot]
    by_cases hd : d.parent = none
    · simp only [if_pos hd]
      constructor
      · intro h; cases h
      · intro h
        exact absurd hd (h d (List.mem_cons_self _ _))
    · simp only [if_neg hd]
      cases h : extractRoot ds with
      | some pr =>
        simp only [h] at ih ⊢
        constructor
        · intro h2; cases h2
        · intro h2
          have : ¬ (∀ x ∈ ds, x.parent ≠ none) := by
            intro hall
            have := ih.mpr hall
            cases this
          exact absurd (fun x hx => h2 x (List.mem_cons_of_mem _ hx)) this
      | none =>
        simp only [h] at ih ⊢
        constructor
        · intro _ x hx
          rcases List.mem_cons.mp hx with rfl | hx2
          · exact hd
          · exact ih.mp trivial x hx2
        · intro _; trivial

theorem extractRoot_cons (d : Document) (ds : List Document) :
    extractRoot (d :: ds) =
      if d.parent = none then some (d, ds)
      else
        match extractRoot ds with
        | some (r, rest) => some (r, d :: rest)
        | none => none := by
  rw [extractRoot]

theorem extractRoot_first (pre : List Document) :
    ∀ (d : Document) (post : List Document), d.parent = none →
    (∀ x ∈ pre, x.parent ≠ none) →
    extractRoot (pre ++ d :: post) = some (d, pre ++ post) := by
  induction pre with
  | nil =>
    intro d post hd _
    simp [extractRoot, hd]
  | cons p ps ih =>
    intro d post hd hall
    have hp : p.parent ≠ none := hall p (List.mem_cons_self _ _)
    rw [List.cons_append, extractRoot_cons, if_neg hp,
      ih d post hd (fun x hx => hall x (List.mem_cons_of_mem _ hx))]
    simp

theorem extractRoot_some (docs : List Document) :
    ∀ r rest, extractRoot docs = some (r, rest) →
    ∃ pre post, docs = pre ++ r :: post ∧ rest = pre ++ post ∧
      r.parent = none ∧ (∀ x ∈ pre, x.parent ≠ none) := by
  induction docs with
  | nil => intro r rest h; simp [extractRoot] at h
  | cons d ds ih =>
    intro r rest h
    simp only [extractRoot] at h
    by_cases hd : d.parent = none
    · rw [if_pos hd] at h
      cases h
      exact ⟨[], ds, rfl, rfl, hd, by simp⟩
    · rw [if_neg hd] at h
      cases h2 : extractRoot ds with
      | some pr =>
        rw [h2] at h
        cases h
        obtain ⟨pre, post, hds, hrest, hr, hpre⟩ := ih pr.1 pr.2 (by rw [h2])
        refine ⟨d :: pre, post, by simp [hds], by simp [hrest], hr, ?_⟩
        intro x hx
        rcases List.mem_cons.mp hx with rfl | hx2
        · exact hd
        · exact hpre x hx2
      | none => rw [h2] at h; cases h

theorem fromList_none (docs : List Document) (h : extractRoot docs = none) :
    fromList docs = .error .noRoot := by
  simp [fromList, h]

theorem fromList_some (docs : List Document) (r : Document) (rest : List Document)
    (h : extractRoot docs = some (r, rest)) :
    fromList docs = buildLoop (.mk r []) rest := by
  simp [fromList, h]

theorem extractRoot_perm (docs : List Document) (r : Document) (rest : List Document)
    (h : extractRoot docs = some (r, rest)) : docs.Perm (r :: rest) := by
  obtain ⟨pre, post, hdocs, hrest, _, _⟩ := extractRoot_some docs r rest h
  rw [hdocs, hrest]
  exact List.perm_middle

/-- C1: with exactly one root-eligible handle, every referenced parent
prefix present in the list, and an acyclic child-prefix-to-parent-prefix
reference graph (witnessed by a rank function), `Node.from_list` succeeds
and the pre-order iteration of the result is a permutation of the input:
every input document appears exactly once. -/
theorem assemble_total_preorder_complete (docs : List Document)
    (h1 : docs.countP (fun d => d.parent.isNone) = 1)
    (h2 : ∀ d ∈ docs, ∀ p, d.parent = some p → ∃ x ∈ docs, x.pfx = p)
    (h3 : ∃ rank : String → Nat, ∀ d ∈ docs, ∀ p, d.parent = some p →
      rank p < rank d.pfx) :
    ∃ t, fromList docs = .ok t ∧ (preorder t).Perm docs := by
  obtain ⟨rank, hrank⟩ := h3
  cases hext : extractRoot docs with
  | none =>
    exfalso
    have hall := (extractRoot_none_iff docs).mp hext
    have hpos : 0 < docs.countP (fun d => d.parent.isNone) := by omega
    obtain ⟨d, hd, hdn⟩ := List.countP_pos_iff.mp hpos
    exact hall d hd (Option.isNone_iff_eq_none.mp hdn)
  | some pr =>
    obtain ⟨r, rest⟩ := pr
    have hperm : docs.Perm (r :: rest) := extractRoot_perm docs r rest hext
    obtain ⟨pre, post, hdocs, hrest, hrnone, _⟩ := extractRoot_some docs r rest hext
    have hrest_ne : ∀ x ∈ rest, x.parent ≠ none := by
      have hcnt : docs.countP (fun d => d.parent.isNone) =
          pre.countP (fun d => d.parent.isNone) + (1 +
            post.countP (fun d => d.parent.isNone)) := by
        rw [hdocs, List.countP_append, List.countP_cons_of_pos _ _ (by simp [hrnone])]
        omega
      intro x hx
      rw [hrest] at hx
      have h0 : pre.countP (fun d => d.parent.isNone) = 0 ∧
          post.countP (fun d => d.parent.isNone) = 0 := by
        constructor <;> omega
      rcases List.mem_append.mp hx with hx2 | hx2
      · have := List.countP_eq_zero.mp h0.1 x hx2
        simpa [Option.isNone_iff_eq_none] using this
      · have := List.countP_eq_zero.mp h0.2 x hx2
        simpa [Option.isNone_iff_eq_none] using this
    have habs : CanAbsorb (↑(preorder (Node.mk r []))) (↑rest) := by
      rw [preorder_mk, preorderList_nil]
      refine canAbsorb_of_rank rank (↑rest) (↑[r]) ?_
      intro d hd
      have hdr : d ∈ rest := by simpa using hd
      have hddocs : d ∈ docs := hperm.mem_iff.mpr (List.mem_cons_of_mem _ hdr)
      obtain ⟨p, hp⟩ := Option.ne_none_iff_exists'.mp (hrest_ne d hdr)
      obtain ⟨x, hxdocs, hxp⟩ := h2 d hddocs p hp
      refine ⟨p, hp, hrank d hddocs p hp, x, ?_, hxp⟩
      have : x ∈ r :: rest := hperm.mem_iff.mp hxdocs
      rcases List.mem_cons.mp this with rfl | hx2
      · exact Multiset.mem_add.mpr (Or.inl (by simp))
      · exact Multiset.mem_add.mpr (Or.inr (by simpa using hx2))
    obtain ⟨t2, ht2⟩ := (buildLoop_ok_iff_canAbsorb (Node.mk r []) rest).mpr habs
    refine ⟨t2, by rw [fromList_some docs r rest hext]; exact ht2, ?_⟩
    have := buildLoop_ok_perm (Node.mk r []) rest t2 ht2
    rw [preorder_mk, preorderList_nil] at this
    exact this.trans hperm.symm

/-- Witness for C1 at a concrete two-document input. -/
theorem assemble_total_preorder_complete_witness :
    ∃ t, fromList [⟨"REQ", none, "", [], none⟩, ⟨"HLT", some "REQ", "", [], none⟩] = .ok t ∧
      (preorder t).Perm [⟨"REQ", none, "", [], none⟩, ⟨"HLT", some "REQ", "", [], none⟩] := by
  refine assemble_total_preorder_complete _ (by decide) ?_ ?_
  · intro d hd p hp
    rcases List.mem_cons.mp hd with rfl | hd2
    · cases hp
    · rcases List.mem_cons.mp hd2 with rfl | hd3
      · cases hp
        exact ⟨_, List.mem_cons_self _ _, rfl⟩
      · cases hd3
  · refine ⟨fun s => if s = "REQ" then 0 else 1, ?_⟩
    intro d hd p hp
    rcases List.mem_cons.mp hd with rfl | hd2
    · cases hp
    · rcases List.mem_cons.mp hd2 with rfl | hd3
      · cases hp
        simp
      · cases hd3

theorem size_mk (doc : Document) (cs : List Node) :
    size (Node.mk doc cs) = 1 + sizeList cs := by
  rw [size]

theorem sizeList_nil : sizeList [] = 0 := by
  rw [sizeList]

theorem sizeList_cons (c : Node) (cs : List Node) :
    sizeList (c :: cs) = size c + sizeList cs := by
  rw [sizeList]

theorem size_preorder_all :
    (∀ t, size t = (preorder t).length) ∧
    (∀ cs, sizeList cs = (preorderList cs).length) := by
  apply node_ind
  · intro d cs hQ
    rw [size_mk, preorder_mk, List.length_cons, hQ]
    omega
  · rw [sizeList_nil, preorderList_nil]
    rfl
  · intro c cs hP hQ
    rw [sizeList_cons, preorderList_cons, List.length_append, hP, hQ]

/-- C10: the size reported by `Node.__len__` (one plus the sum of the
children's sizes) equals the number of documents yielded by `Node.__iter__`,
the length of the pre-order document sequence. -/
theorem size_eq_preorder_length : ∀ t : Node, size t = (preorder t).length :=
  size_preorder_all.1

/-- C4 (amended): if no document of the list has an absent (`None`) parent
reference, `Node.from_list` raises the no-root error; and the first document
whose parent reference is absent is the one selected as root: it is the
document wrapped by the root node of any tree the assembly returns.  (A
present-but-empty parent string does not qualify: only `None` does.) -/
theorem root_selection (docs : List Document) :
    ((∀ d ∈ docs, d.parent ≠ none) → fromList docs = .error .noRoot) ∧
    (∀ pre d post, docs = pre ++ d :: post → (∀ x ∈ pre, x.parent ≠ none) →
      d.parent = none →
      extractRoot docs = some (d, pre ++ post) ∧
      ∀ t, fromList docs = .ok t → t.document = d) := by
  constructor
  · intro hall
    exact fromList_none docs ((extractRoot_none_iff docs).mpr hall)
  · intro pre d post hdocs hpre hd
    have hext : extractRoot docs = some (d, pre ++ post) := by
      rw [hdocs]
      exact extractRoot_first pre d post hd hpre
    refine ⟨hext, ?_⟩
    intro t ht
    rw [fromList_some docs d (pre ++ post) hext] at ht
    have := buildLoop_ok_document (Node.mk d []) (pre ++ post) t ht
    rw [this]
    rfl

/-- Witness for C4 (amended) at concrete inputs: a list with no `None`
parent raises no-root, and with a `None`-parent document in second
position that document becomes the root of the returned tree. -/
theorem root_selection_witness :
    fromList [⟨"A", some "B", "", [], none⟩] = .error .noRoot ∧
    (extractRoot [⟨"B", some "A", "", [], none⟩, ⟨"A", none, "", [], none⟩] =
      some (⟨"A", none, "", [], none⟩, [⟨"B", some "A", "", [], none⟩]) ∧
      ∀ t, fromList [⟨"B", some "A", "", [], none⟩, ⟨"A", none, "", [], none⟩] = .ok t →
        t.document = ⟨"A", none, "", [], none⟩) := by
  constructor
  · refine (root_selection _).1 ?_
    intro d hd
    rcases List.mem_cons.mp hd with rfl | hd2
    · simp
    · cases hd2
  · exact (root_selection _).2 [⟨"B", some "A", "", [], none⟩]
      ⟨"A", none, "", [], none⟩ [] rfl
      (by
        intro x hx
        rcases List.mem_cons.mp hx with rfl | hx2
        · simp
        · cases hx2) rfl

/-- Counterexample to C4 as stated: the claim counts an empty-string
parent prefix as root-eligible ("null/empty"), but the source tests
`doc.parent is None` only, so a document whose parent prefix is present
but empty does not become root: assembly raises the no-root error. -/
theorem root_selection_claim_counterexample :
    (⟨"A", some "", "", [], none⟩ : Document).parent = some "" ∧
    fromList [⟨"A", some "", "", [], none⟩] = .error .noRoot :=
  ⟨rfl, rfl⟩

theorem buildLoop_unplaceable_aux : ∀ (n : Nat) (t : Node) (u : List Document)
    (d : Document) (p : String), u.length ≤ n → d ∈ u → d.parent = some p →
    (∀ x ∈ preorder t ++ u, x.pfx ≠ p) →
    ∃ d2, buildLoop t u = .error (.unplacedDoc d2) := by
  intro n
  induction n with
  | zero =>
    intro t u d p hu hd _ _
    have : u = [] := List.length_eq_zero.mp (Nat.le_zero.mp hu)
    subst this
    cases hd
  | succ n ih =>
    intro t u d p hu hd hp hall
    cases u with
    | nil => cases hd
    | cons d0 ds =>
      rw [buildLoop_cons]
      by_cases hstuck : (passOnce t (d0 :: ds)).2.length = (d0 :: ds).length
      · rw [if_pos hstuck]
        exact ⟨_, rfl⟩
      · rw [if_neg hstuck]
        have hle := passOnce_length_le t (d0 :: ds)
        have hlt : (passOnce t (d0 :: ds)).2.length < (d0 :: ds).length :=
          Nat.lt_of_le_of_ne hle hstuck
        have hkeep : d ∈ (passOnce t (d0 :: ds)).2 :=
          passOnce_keeps (d0 :: ds) t d p hd hp hall
        refine ih (passOnce t (d0 :: ds)).1 (passOnce t (d0 :: ds)).2 d p
          ?_ hkeep hp ?_
        · simp only [List.length_cons] at hu hlt ⊢
          omega
        · intro x hx
          exact hall x ((passOnce_perm (d0 :: ds) t).mem_iff.mp hx)

/-- C3: a full pass that removes zero unplaced documents makes
`Node.from_list` raise the unplaceable-document error naming the first
remaining unplaced document (never a partial tree); in particular, once a
root is selected, a remaining document whose parent prefix occurs nowhere
in the input makes the whole assembly end in the unplaceable-document
error. -/
theorem stuck_pass_unplaceable :
    (∀ (t : Node) (d : Document) (ds : List Document),
      (passOnce t (d :: ds)).2.length = (d :: ds).length →
      buildLoop t (d :: ds) = .error (.unplacedDoc d)) ∧
    (∀ (docs rest : List Document) (r d : Document) (p : String),
      extractRoot docs = some (r, rest) → d ∈ rest → d.parent = some p →
      (∀ x ∈ docs, x.pfx ≠ p) →
      ∃ d2, fromList docs = .error (.unplacedDoc d2)) := by
  constructor
  · intro t d ds hstuck
    rw [buildLoop_cons, if_pos hstuck, passOnce_no_progress (d :: ds) t hstuck]
    rfl
  · intro docs rest r d p hext hd hp hall
    rw [fromList_some docs r rest hext]
    refine buildLoop_unplaceable_aux rest.length (Node.mk r []) rest d p
      le_rfl hd hp ?_
    intro x hx
    rw [preorder_mk, preorderList_nil] at hx
    refine hall x ?_
    have : x ∈ r :: rest := by simpa using hx
    exact (extractRoot_perm docs r rest hext).mem_iff.mpr this

/-- Witness for C3: `[A (root), B (parent A), C (parent Z)]` with `Z`
absent ends in the unplaceable-document error. -/
theorem stuck_pass_unplaceable_witness :
    ∃ d2, fromList [⟨"A", none, "", [], none⟩, ⟨"B", some "A", "", [], none⟩,
      ⟨"C", some "Z", "", [], none⟩] = .error (.unplacedDoc d2) := by
  refine stuck_pass_unplaceable.2 _ [⟨"B", some "A", "", [], none⟩,
    ⟨"C", some "Z", "", [], none⟩] ⟨"A", none, "", [], none⟩
    ⟨"C", some "Z", "", [], none⟩ "Z" rfl (by simp) rfl ?_
  intro x hx
  rcases List.mem_cons.mp hx with rfl | hx2
  · simp
  · rcases List.mem_cons.mp hx2 with rfl | hx3
    · simp
    · rcases List.mem_cons.mp hx3 with rfl | hx4
      · simp
      · cases hx4

theorem passOnce_edges_wf (u : List Document) : ∀ t : Node,
    (∀ pc ∈ docEdges t, pc.2.parent = some pc.1.pfx) →
    ∀ pc ∈ docEdges (passOnce t u).1, pc.2.parent = some pc.1.pfx := by
  induction u with
  | nil => intro t h; simpa [passOnce] using h
  | cons d ds ih =>
    intro t h
    simp only [passOnce]
    cases hp : place t d with
    | ok t2 =>
      refine ih t2 ?_
      obtain ⟨x, hx, hperm⟩ := place_docEdges t d t2 hp
      intro pc hpc
      rcases List.mem_cons.mp (hperm.mem_iff.mp hpc) with rfl | hpc2
      · exact hx
      · exact h pc hpc2
    | error e => exact ih t h

theorem buildLoop_edges_wf_aux : ∀ (n : Nat) (t : Node) (u : List Document),
    u.length ≤ n → ∀ t2, buildLoop t u = .ok t2 →
    (∀ pc ∈ docEdges t, pc.2.parent = some pc.1.pfx) →
    ∀ pc ∈ docEdges t2, pc.2.parent = some pc.1.pfx := by
  intro n
  induction n with
  | zero =>
    intro t u hu t2 h hwf
    have : u = [] := List.length_eq_zero.mp (Nat.le_zero.mp hu)
    subst this
    rw [buildLoop_nil] at h
    cases h
    exact hwf
  | succ n ih =>
    intro t u hu t2 h hwf
    cases u with
    | nil =>
      rw [buildLoop_nil] at h
      cases h
      exact hwf
    | cons d ds =>
      rw [buildLoop_cons] at h
      split at h
      · cases h
      · rename_i hne
        have hle := passOnce_length_le t (d :: ds)
        have hlt : (passOnce t (d :: ds)).2.length < (d :: ds).length :=
          Nat.lt_of_le_of_ne hle hne
        exact ih (passOnce t (d :: ds)).1 (passOnce t (d :: ds)).2
          (by simp only [List.length_cons] at hu hlt ⊢; omega) t2 h
          (passOnce_edges_wf (d :: ds) t hwf)

/-- C2 (amended): `place` attaches a document as a new child exactly when
some node of the tree carries exactly the document's parent prefix — the
source compares `doc.parent == self.document.prefix` case-sensitively, not
case-insensitively — and every parent/child edge it creates, hence every
edge of any tree `from_list` returns, satisfies
`child.parent = some parent.pfx` exactly. -/
theorem place_match_exact :
    (∀ (t : Node) (d : Document),
      (∃ t2, place t d = .ok t2) ↔ ∃ x ∈ preorder t, d.parent = some x.pfx) ∧
    (∀ (t : Node) (d : Document) (t2 : Node), place t d = .ok t2 →
      ∀ pc ∈ docEdges t2, pc.2.parent = some pc.1.pfx ∨ pc ∈ docEdges t) ∧
    (∀ (docs : List Document) (t : Node), fromList docs = .ok t →
      ∀ pc ∈ docEdges t, pc.2.parent = some pc.1.pfx) := by
  refine ⟨place_ok_iff, ?_, ?_⟩
  · intro t d t2 h pc hpc
    obtain ⟨x, hx, hperm⟩ := place_docEdges t d t2 h
    rcases List.mem_cons.mp (hperm.mem_iff.mp hpc) with rfl | hpc2
    · exact Or.inl hx
    · exact Or.inr hpc2
  · intro docs t h pc hpc
    cases hext : extractRoot docs with
    | none => rw [fromList_none docs hext] at h; cases h
    | some pr =>
      obtain ⟨r, rest⟩ := pr
      rw [fromList_some docs r rest hext] at h
      refine buildLoop_edges_wf_aux rest.length (Node.mk r []) rest le_rfl t h
        ?_ pc hpc
      intro pc2 hpc2
      rw [docEdges_mk, docEdgesList_nil] at hpc2
      cases hpc2

/-- Python's `str.lower()` as the resolver uses it, taken down to
character level so that it evaluates inside the kernel. -/
def lower (s : String) : String :=
  ⟨s.data.map Char.toLower⟩

/-- Counterexample to C2 as stated: the parent prefix `req` matches the
node prefix `REQ` case-insensitively, so per the claim `place` must attach
the document, but the source's exact comparison refuses it. -/
theorem place_match_exact_counterexample :
    lower "req" = lower "REQ" ∧
    place (Node.mk ⟨"REQ", none, "", [], none⟩ []) ⟨"HLT", some "req", "", [], none⟩ =
      .error (.noParent ⟨"HLT", some "req", "", [], none⟩) := by
  exact ⟨by decide, rfl⟩

/-- Shared concrete assembly: `[REQ (root), HLT (parent REQ)]` builds the
two-node tree. -/
theorem fromList_demo :
    fromList [⟨"REQ", none, "", [], none⟩, ⟨"HLT", some "REQ", "", [], none⟩] =
      .ok (Node.mk ⟨"REQ", none, "", [], none⟩
        [Node.mk ⟨"HLT", some "REQ", "", [], none⟩ []]) := by
  have h1 : extractRoot [⟨"REQ", none, "", [], none⟩,
      ⟨"HLT", some "REQ", "", [], none⟩] =
      some (⟨"REQ", none, "", [], none⟩, [⟨"HLT", some "REQ", "", [], none⟩]) := rfl
  rw [fromList_some _ _ _ h1, buildLoop_cons, if_neg (by decide)]
  show buildLoop (Node.mk ⟨"REQ", none, "", [], none⟩
    [Node.mk ⟨"HLT", some "REQ", "", [], none⟩ []]) [] =
    .ok (Node.mk ⟨"REQ", none, "", [], none⟩
      [Node.mk ⟨"HLT", some "REQ", "", [], none⟩ []])
  rw [buildLoop_nil]

/-- Witness for C2 (amended): the iff and the edge property evaluated on
the concrete two-document assembly. -/
theorem place_match_exact_witness :
    (∃ t2, place (Node.mk ⟨"REQ", none, "", [], none⟩ [])
      ⟨"HLT", some "REQ", "", [], none⟩ = .ok t2) ∧
    (∀ pc ∈ docEdges (Node.mk ⟨"REQ", none, "", [], none⟩
        [Node.mk ⟨"HLT", some "REQ", "", [], none⟩ []]),
      pc.2.parent = some pc.1.pfx) := by
  constructor
  · refine (place_match_exact.1 _ _).mpr ?_
    exact ⟨⟨"REQ", none, "", [], none⟩, by rw [preorder_mk, preorderList_nil]; simp, rfl⟩
  · exact place_match_exact.2.2 _ _ fromList_demo

/-- C5: if `Node.from_list` succeeds on a list, it succeeds on every
permutation of that list, and the resulting tree has the same multiset of
parent-prefix/child-prefix edges and the same multiset of documents in its
pre-order traversal — the trees agree up to child insertion order. -/
theorem assemble_order_independent (docs docs2 : List Document) (t : Node)
    (h : fromList docs = .ok t) (hperm : docs2.Perm docs) :
    ∃ t2, fromList docs2 = .ok t2 ∧ (prefixEdges t2).Perm (prefixEdges t) ∧
      (preorder t2).Perm (preorder t) := by
  cases hext : extractRoot docs with
  | none => rw [fromList_none docs hext] at h; cases h
  | some pr =>
    obtain ⟨r, rest⟩ := pr
    rw [fromList_some docs r rest hext] at h
    have habs : CanAbsorb (↑[r]) (↑rest) := by
      have := (buildLoop_ok_iff_canAbsorb (Node.mk r []) rest).mp ⟨t, h⟩
      rwa [preorder_mk, preorderList_nil] at this
    have hrestne : ∀ x ∈ rest, x.parent ≠ none := by
      intro x hx
      exact canAbsorb_parent_ne_none habs x (by simpa using hx)
    have hrnone : r.parent = none :=
      (extractRoot_some docs r rest hext).choose_spec.choose_spec.2.2.1
    have hdocsperm : docs.Perm (r :: rest) := extractRoot_perm docs r rest hext
    cases hext2 : extractRoot docs2 with
    | none =>
      exfalso
      have hall := (extractRoot_none_iff docs2).mp hext2
      have : r ∈ docs2 := (hperm.trans hdocsperm).mem_iff.mpr (List.mem_cons_self _ _)
      exact hall r this hrnone
    | some pr2 =>
      obtain ⟨r2, rest2⟩ := pr2
      obtain ⟨pre2, post2, hdocs2, hrest2, hr2none, _⟩ :=
        extractRoot_some docs2 r2 rest2 hext2
      have hr2r : r2 = r := by
        have hr2docs : r2 ∈ docs2 := by
          rw [hdocs2]
          exact List.mem_append_right _ (List.mem_cons_self _ _)
        have : r2 ∈ r :: rest := (hperm.trans hdocsperm).mem_iff.mp hr2docs
        rcases List.mem_cons.mp this with h2 | h2
        · exact h2
        · exact absurd hr2none (hrestne r2 h2)
      subst hr2r
      have hrest2perm : rest2.Perm rest := by
        have h1 : docs2.Perm (r2 :: rest2) := extractRoot_perm docs2 r2 rest2 hext2
        have h2 : (r2 :: rest2).Perm (r2 :: rest) :=
          h1.symm.trans (hperm.trans hdocsperm)
        exact h2.cons_inv
      have habs2 : CanAbsorb (↑[r2]) (↑rest2) := by
        rwa [Multiset.coe_eq_coe.mpr hrest2perm]
      obtain ⟨t2, ht2⟩ := (buildLoop_ok_iff_canAbsorb (Node.mk r2 []) rest2).mpr
        (by rwa [preorder_mk, preorderList_nil])
      refine ⟨t2, by rw [fromList_some docs2 r2 rest2 hext2]; exact ht2, ?_, ?_⟩
      · have he1 := buildLoop_ok_edges (Node.mk r2 []) rest t h
        have he2 := buildLoop_ok_edges (Node.mk r2 []) rest2 t2 ht2
        have hz : prefixEdges (Node.mk r2 []) = [] := by
          rw [prefixEdges, docEdges_mk, docEdgesList_nil]
          rfl
        rw [hz, List.nil_append] at he1 he2
        exact he2.trans ((hrest2perm.filterMap edgeOf).trans he1.symm)
      · have hp1 := buildLoop_ok_perm (Node.mk r2 []) rest t h
        have hp2 := buildLoop_ok_perm (Node.mk r2 []) rest2 t2 ht2
        rw [preorder_mk, preorderList_nil] at hp1 hp2
        refine hp2.trans (List.Perm.trans ?_ hp1.symm)
        exact List.Perm.append_left _ hrest2perm

/-- Witness for C5: swapping the two documents of the concrete assembly
succeeds with the same edge and document multisets. -/
theorem assemble_order_independent_witness :
    ∃ t2, fromList [⟨"HLT", some "REQ", "", [], none⟩, ⟨"REQ", none, "", [], none⟩] =
        .ok t2 ∧
      (prefixEdges t2).Perm (prefixEdges (Node.mk ⟨"REQ", none, "", [], none⟩
        [Node.mk ⟨"HLT", some "REQ", "", [], none⟩ []])) ∧
      (preorder t2).Perm (preorder (Node.mk ⟨"REQ", none, "", [], none⟩
        [Node.mk ⟨"HLT", some "REQ", "", [], none⟩ []])) := by
  refine assemble_order_independent _ _ _ fromList_demo ?_
  exact List.Perm.swap _ _ _

/-- The `for document in self: document.check()` loop of `Node.check`,
over an explicit document list: returns the documents whose `check` was
invoked (in order) together with the overall outcome — `ok true` when the
loop completes, or the first raised document error. -/
def checkSeq : List Document → List Document × Except String Bool
  | [] => ([], .ok true)
  | d :: ds =>
    match d.checkErr with
    | some e => ([d], .error e)
    | none =>
      let r := checkSeq ds
      (d :: r.1, r.2)

/-- Embedding of `Node.check`: run each document's own `check()` in
pre-order; the first failure aborts the traversal, otherwise return
`True`. -/
def check (t : Node) : List Document × Except String Bool :=
  checkSeq (preorder t)

theorem checkSeq_all_ok (docs : List Document)
    (h : ∀ d ∈ docs, d.checkErr = none) : checkSeq docs = (docs, .ok true) := by
  induction docs with
  | nil => rfl
  | cons d ds ih =>
    have hd : d.checkErr = none := h d (List.mem_cons_self _ _)
    simp only [checkSeq, hd, ih (fun x hx => h x (List.mem_cons_of_mem _ hx))]

theorem checkSeq_first_error (pre : List Document) :
    ∀ (d : Document) (post : List Document) (e : String),
    (∀ x ∈ pre, x.checkErr = none) → d.checkErr = some e →
    checkSeq (pre ++ d :: post) = (pre ++ [d], .error e) := by
  induction pre with
  | nil =>
    intro d post e _ hd
    simp only [List.nil_append, checkSeq, hd]
  | cons p ps ih =>
    intro d post e hall hd
    have hp : p.checkErr = none := hall p (List.mem_cons_self _ _)
    simp only [List.cons_append, checkSeq, hp, List.append_eq]
    rw [ih d post e (fun x hx => hall x (List.mem_cons_of_mem _ hx)) hd]

/-- C9: `Node.check` invokes each document's own `check()` in pre-order;
it returns `True` when every one succeeds, and otherwise raises exactly
the error of the first failing document, invoking no document after it. -/
theorem check_failfast (t : Node) :
    ((∀ d ∈ preorder t, d.checkErr = none) → check t = (preorder t, .ok true)) ∧
    (∀ pre d post e, preorder t = pre ++ d :: post →
      (∀ x ∈ pre, x.checkErr = none) → d.checkErr = some e →
      check t = (pre ++ [d], .error e)) := by
  constructor
  · intro h
    exact checkSeq_all_ok (preorder t) h
  · intro pre d post e hpre hall hd
    rw [check, hpre]
    exact checkSeq_first_error pre d post e hall hd

/-- Witness for C9: an all-passing tree returns `True`; a tree whose
second pre-order document fails stops there with that document's error. -/
theorem check_failfast_witness :
    check (Node.mk ⟨"REQ", none, "", [], none⟩
      [Node.mk ⟨"HLT", some "REQ", "", [], none⟩ []]) =
      ([⟨"REQ", none, "", [], none⟩, ⟨"HLT", some "REQ", "", [], none⟩], .ok true) ∧
    check (Node.mk ⟨"REQ", none, "", [], none⟩
      [Node.mk ⟨"HLT", some "REQ", "", [], some "bad document"⟩ [],
       Node.mk ⟨"LLT", some "REQ", "", [], none⟩ []]) =
      ([⟨"REQ", none, "", [], none⟩, ⟨"HLT", some "REQ", "", [], some "bad document"⟩],
        .error "bad document") := by
  constructor
  · refine (check_failfast _).1 ?_
    intro d hd
    rw [preorder_mk, preorderList_cons, preorder_mk, preorderList_nil] at hd
    rcases List.mem_cons.mp hd with rfl | hd2
    · rfl
    · rcases (by simpa using hd2 : d = _) with rfl
      rfl
  · refine (check_failfast _).2 [⟨"REQ", none, "", [], none⟩]
      ⟨"HLT", some "REQ", "", [], some "bad document"⟩
      [⟨"LLT", some "REQ", "", [], none⟩] "bad document" ?_ ?_ rfl
    · rw [preorder_mk, preorderList_cons, preorder_mk, preorderList_nil,
        preorderList_cons, preorder_mk, preorderList_nil]
      rfl
    · intro x hx
      rcases List.mem_cons.mp hx with rfl | hx2
      · rfl
      · cases hx2

/-- The external document factory, modelled from the spec:
`create(path, rootPath, prefix, parentPrefix?, digits?)` yields a fresh
handle carrying the requested prefix, parent reference and path, and
creates the document's on-disk storage at `path`. -/
def Document.new (path pfx : String) (parent : Option String) : Document :=
  ⟨pfx, parent, path, [], none⟩

/-- Embedding of `Node.new`: create the document (its storage directory
appears), try to place it; on success return the grown tree, on failure
delete the created storage and re-raise the placement error.  The first
component is the outcome, the second the tree after the call, the third
the on-disk storage (a multiset of directory paths) after the call. -/
def new (t : Node) (storage : List String) (path pfx : String)
    (parent : Option String) :
    Except DoorstopError Document × Node × List String :=
  let doc := Document.new path pfx parent
  match place t doc with
  | .ok t2 => (.ok doc, t2, path :: storage)
  | .error e => (.error e, t, (path :: storage).erase path)

/-- C8: when placement of the newly created document fails, `Node.new`
deletes the document's freshly created storage (the storage list is
exactly what it was before the call), re-raises the placement error
unmodified, and leaves the tree exactly as it was. -/
theorem new_rollback (t : Node) (storage : List String) (path pfx : String)
    (parent : Option String) (e : DoorstopError)
    (h : place t (Document.new path pfx parent) = .error e) :
    new t storage path pfx parent = (.error e, t, storage) := by
  simp only [new, h, List.erase_cons_head]

/-- Witness for C8: creating a document under an absent parent prefix
rolls back storage and tree and surfaces the placement error. -/
theorem new_rollback_witness :
    new (Node.mk ⟨"REQ", none, "", [], none⟩ []) ["existing"] "reqs/x" "X"
        (some "ZZZ") =
      (.error (.noParent ⟨"X", some "ZZZ", "reqs/x", [], none⟩),
        Node.mk ⟨"REQ", none, "", [], none⟩ [], ["existing"]) := by
  exact new_rollback _ _ _ _ _ _ rfl

/-- Value of a string of decimal digit characters. -/
def digitsToNat (cs : List Char) : Nat :=
  cs.foldl (fun acc c => 10 * acc + (c.toNat - 48)) 0

/-- Modelled from the spec: `Item.split_id` is external to the processor;
it splits a composite ID such as `REQ1` into its document prefix and its
number, raising the invalid-format error on malformed input. -/
def splitId (s : String) : Except DoorstopError (String × Nat) :=
  let p := s.data.takeWhile fun c => ¬ c.isDigit
  let ds := s.data.dropWhile fun c => ¬ c.isDigit
  if p ≠ [] ∧ ds ≠ [] ∧ ds.all (fun c => c.isDigit) then
    .ok (⟨p⟩, digitsToNat ds)
  else
    .error (.invalidIdFormat s)

/-- The document scan of `Node.link` (for either side): walk the pre-order
document list; in each document whose prefix matches case-insensitively,
look for an item with the wanted number; the first hit anywhere wins, and
a matching document without the number does not stop the scan. -/
def itemLookup (docs : List Document) (p : String) (n : Nat) : Option Item :=
  match docs with
  | [] => none
  | d :: ds =>
    match (if lower d.pfx = lower p then d.items.find? (fun i => i.number == n)
           else none) with
    | some i => some i
    | none => itemLookup ds p n

/-- Mutation performed by `child.add_link(...)` inside a document's item
list: the first item carrying the number gains the link. -/
def addLinkItems (items : List Item) (n : Nat) (lid : String) : List Item :=
  match items with
  | [] => []
  | i :: is =>
    if i.number == n then { i with links := i.links ++ [lid] } :: is
    else i :: addLinkItems is n lid

mutual

/-- Rebuild the tree after `child.add_link(...)`: locate (pre-order) the
first document that matches the prefix case-insensitively and contains the
item number, and extend that item's links; the flag reports success. -/
def addLinkNode (t : Node) (p : String) (n : Nat) (lid : String) : Node × Bool :=
  match t with
  | .mk doc cs =>
    if lower doc.pfx = lower p ∧ (doc.items.find? (fun i => i.number == n)).isSome then
      (.mk { doc with items := addLinkItems doc.items n lid } cs, true)
    else
      match addLinkChildren cs p n lid with
      | (cs2, b) => (.mk doc cs2, b)

/-- `addLinkNode` over the children, first success wins. -/
def addLinkChildren (cs : List Node) (p : String) (n : Nat) (lid : String) :
    List Node × Bool :=
  match cs with
  | [] => ([], false)
  | c :: rest =>
    match addLinkNode c p n lid with
    | (c2, true) => (c2 :: rest, true)
    | (_, false) =>
      match addLinkChildren rest p n lid with
      | (rest2, b) => (c :: rest2, b)

end

/-- Embedding of `Node.link` (lines 169–215): resolve the child ID, then
the parent ID, each as prefix+number over the pre-order documents; on
failure return the corresponding error with the tree untouched — the
parent-side message formats `cid`, exactly as the source does — and on
success record `parent.id` in the child item's links and return the
(mutated) child together with the parent. -/
def link (t : Node) (cid pid : String) :
    Node × Except DoorstopError (Item × Item) :=
  match splitId cid with
  | .error e => (t, .error e)
  | .ok (cp, cn) =>
    match itemLookup (preorder t) cp cn with
    | none => (t, .error (.noMatchingChildId cid))
    | some child =>
      match splitId pid with
      | .error e => (t, .error e)
      | .ok (pp, pn) =>
        match itemLookup (preorder t) pp pn with
        | none => (t, .error (.noMatchingParentId cid))
        | some par =>
          ((addLinkNode t cp cn par.id).1,
            .ok ({ child with links := child.links ++ [par.id] }, par))

/-- C6 (amended): with both IDs resolvable, `link` appends the resolved
parent item's own id to the child item's links and returns the
child/parent pair; with the child or the parent unresolvable, the tree is
returned untouched and the error carries the corresponding side's kind. -/
theorem link_spec (t : Node) (cid pid : String) :
    (∀ cp cn child pp pn par, splitId cid = .ok (cp, cn) →
      itemLookup (preorder t) cp cn = some child →
      splitId pid = .ok (pp, pn) →
      itemLookup (preorder t) pp pn = some par →
      link t cid pid = ((addLinkNode t cp cn par.id).1,
        .ok ({ child with links := child.links ++ [par.id] }, par)) ∧
      par.id ∈ ({ child with links := child.links ++ [par.id] } : Item).links) ∧
    (∀ cp cn, splitId cid = .ok (cp, cn) →
      itemLookup (preorder t) cp cn = none →
      link t cid pid = (t, .error (.noMatchingChildId cid))) ∧
    (∀ cp cn child pp pn, splitId cid = .ok (cp, cn) →
      itemLookup (preorder t) cp cn = some child →
      splitId pid = .ok (pp, pn) →
      itemLookup (preorder t) pp pn = none →
      ∃ s, link t cid pid = (t, .error (.noMatchingParentId s))) := by
  refine ⟨?_, ?_, ?_⟩
  · intro cp cn child pp pn par h1 h2 h3 h4
    constructor
    · simp only [link, h1, h2, h3, h4]
    · simp
  · intro cp cn h1 h2
    simp only [link, h1, h2]
  · intro cp cn child pp pn h1 h2 h3 h4
    exact ⟨cid, by simp only [link, h1, h2, h3, h4]⟩

/-- Concrete single-document tree holding items `REQ1` and `REQ2`. -/
def demoTree : Node :=
  Node.mk ⟨"REQ", none, "", [⟨1, "REQ1", "", []⟩, ⟨2, "REQ2", "", []⟩], none⟩ []

/-- Witness for C6 (amended) on the concrete tree: linking `REQ1` to
`REQ2` succeeds, appends `REQ2` to the child's links and returns the
pair. -/
theorem link_spec_witness :
    link demoTree "REQ1" "REQ2" = ((addLinkNode demoTree "REQ" 1 "REQ2").1,
      .ok (⟨1, "REQ1", "", ["REQ2"]⟩, ⟨2, "REQ2", "", []⟩)) ∧
    "REQ2" ∈ (⟨1, "REQ1", "", ["REQ2"]⟩ : Item).links := by
  exact (link_spec demoTree "REQ1" "REQ2").1 "REQ" 1 ⟨1, "REQ1", "", []⟩
    "REQ" 2 ⟨2, "REQ2", "", []⟩ rfl rfl rfl rfl

/-- Counterexample to C6 as stated: linking `REQ1` to parent ID `req2`
resolves case-insensitively, but the links gain the parent item's own id
`REQ2`, not the argument `req2`: the claim's "adds parentId" fails. -/
theorem link_spec_counterexample :
    (link demoTree "REQ1" "req2").2 =
      .ok (⟨1, "REQ1", "", ["REQ2"]⟩, ⟨2, "REQ2", "", []⟩) ∧
    "req2" ∉ (⟨1, "REQ1", "", ["REQ2"]⟩ : Item).links := by
  exact ⟨rfl, by decide⟩

/-- C7: when the child ID resolves and the parent ID does not, the raised
no-matching-parent error formats the *child* ID (`cid`), exactly as line
211 of the source does — here `REQ1` instead of the unresolvable `HLT1`. -/
theorem link_parent_error_names_child_id :
    link (Node.mk ⟨"REQ", none, "", [⟨1, "REQ1", "", []⟩], none⟩ []) "REQ1" "HLT1" =
      (Node.mk ⟨"REQ", none, "", [⟨1, "REQ1", "", []⟩], none⟩ [],
        .error (.noMatchingParentId "REQ1")) := by
  rfl
